import Mathlib

/-!
Shallow embedding of the `rust_analysis` crate of the
Golang-Quant-ML-Trading-Platform repository, with proofs about the
claims of its specification.

Floating-point `f64` arithmetic is modelled by exact rational
arithmetic (`ℚ`); `f64::INFINITY` / `f64::NEG_INFINITY`, used only as
the start value of the rolling min/max folds in
`detect_liquidity_sweep`, are modelled by `⊤ : WithTop ℚ` and
`⊥ : WithBot ℚ`.  Loops that fill a preallocated vector become maps
over `List.range`; loops that fold state become structural recursions.
-/

namespace RustAnalysis

/-- Candle record from `main.rs`; the Rust field `open` is named `opn`
because `open` is a Lean keyword. -/
structure OHLC where
  opn : ℚ
  high : ℚ
  low : ℚ
  close : ℚ
deriving DecidableEq, Inhabited

/-! ### indicators.rs -/

/-- Seed and recurrence of the EMA loop in `calculate_ema`
(`indicators.rs` lines 12-19): `emaAux n` is `ema[(period-1) + n]`. -/
def emaAux (prices : List ℚ) (period : ℕ) (k : ℚ) : ℕ → ℚ
  | 0 => (prices.take period).sum / period
  | n + 1 =>
    let prev := emaAux prices period k n
    (prices.getD (period + n) 0 - prev) * k + prev

/-- Embedding of `calculate_ema` (`indicators.rs` lines 2-22).
The source indexes `ema[period - 1]`, so `period ≥ 1` is assumed by the
source; with `period = 0` the Rust code would panic on the underflowed
index. -/
def calculate_ema (prices : List ℚ) (period : ℕ) : List ℚ :=
  let len := prices.length
  if len < period then List.replicate len 0
  else
    (List.range len).map fun i =>
      if i < period - 1 then 0
      else emaAux prices period (2 / ((period : ℚ) + 1)) (i - (period - 1))

/-- Price change at index `i` (`indicators.rs` line 38); index 0 is
never used with a nonzero value by the RSI loop. -/
def change (prices : List ℚ) (i : ℕ) : ℚ :=
  prices.getD i 0 - prices.getD (i - 1) 0

/-- Entry of the `gains` array of `calculate_rsi`. -/
def gains (prices : List ℚ) (i : ℕ) : ℚ :=
  if 0 < change prices i then change prices i else 0

/-- Entry of the `losses` array of `calculate_rsi`. -/
def losses (prices : List ℚ) (i : ℕ) : ℚ :=
  if 0 < change prices i then 0 else -(change prices i)

/-- Initial average gain of `calculate_rsi`: simple mean of
`gains[1..=period]` (`indicators.rs` line 47). -/
def initAvg (g : ℕ → ℚ) (period : ℕ) : ℚ :=
  ((List.range' 1 period).map g).sum / period

/-- Wilder-smoothed average used by `calculate_rsi`
(`indicators.rs` lines 53-55): `wilderAvg g period alpha n` is the value
of the running average after the loop iteration `i = period + n`.  Note
the source folds `g period` into the average at the first iteration
even though it already entered the seed mean. -/
def wilderAvg (g : ℕ → ℚ) (period : ℕ) (alpha : ℚ) : ℕ → ℚ
  | 0 => initAvg g period * (1 - alpha) + g period * alpha
  | n + 1 => wilderAvg g period alpha n * (1 - alpha) + g (period + n + 1) * alpha

/-- Embedding of `calculate_rsi` (`indicators.rs` lines 25-66). -/
def calculate_rsi (prices : List ℚ) (period : ℕ) : List ℚ :=
  let len := prices.length
  if len < period + 1 then List.replicate len 0
  else
    (List.range len).map fun i =>
      if i < period then 0
      else
        let ag := wilderAvg (gains prices) period (1 / (period : ℚ)) (i - period)
        let al := wilderAvg (losses prices) period (1 / (period : ℚ)) (i - period)
        if al = 0 then 100 else 100 - 100 / (1 + ag / al)

/-- True range at index `i` (`indicators.rs` lines 80-85); the source
computes `hl.max(hc).max(lc)`. -/
def true_range (high low close : List ℚ) (i : ℕ) : ℚ :=
  max (max (high.getD i 0 - low.getD i 0) |high.getD i 0 - close.getD (i - 1) 0|)
    |low.getD i 0 - close.getD (i - 1) 0|

/-- Seed and Wilder recurrence of `calculate_atr`
(`indicators.rs` lines 87-95): `atrAux n` is `atr[period + n]`. -/
def atrAux (high low close : List ℚ) (period : ℕ) (alpha : ℚ) : ℕ → ℚ
  | 0 => ((List.range' 1 period).map (true_range high low close)).sum / period
  | n + 1 =>
    atrAux high low close period alpha n * (1 - alpha) +
      true_range high low close (period + n + 1) * alpha

/-- Embedding of `calculate_atr` (`indicators.rs` lines 69-98). -/
def calculate_atr (high low close : List ℚ) (period : ℕ) : List ℚ :=
  let len := high.length
  if len < period + 1 then List.replicate len 0
  else
    (List.range len).map fun i =>
      if i < period then 0
      else atrAux high low close period (1 / (period : ℚ)) (i - period)

/-! ### patterns.rs -/

/-- Candle body `|close - open|` (`patterns.rs`). -/
def body (c : OHLC) : ℚ := |c.close - c.opn|

/-- Upper wick `high - close.max(open)` (`patterns.rs`). -/
def upper_wick (c : OHLC) : ℚ := c.high - max c.close c.opn

/-- Lower wick `close.min(open) - low` (`patterns.rs`). -/
def lower_wick (c : OHLC) : ℚ := min c.close c.opn - c.low

/-- Candle range `high - low` (`patterns.rs`). -/
def total_range (c : OHLC) : ℚ := c.high - c.low

/-- Per-candle test of `detect_dragonfly_doji`
(`patterns.rs` lines 55-73). -/
def dragonflyDoji (c : OHLC) : Bool :=
  decide (0 < total_range c) &&
    (decide (body c < 0.05 * total_range c) &&
      (decide (0.7 * total_range c < lower_wick c) &&
        decide (upper_wick c < 0.05 * total_range c)))

/-- Embedding of `detect_dragonfly_doji` (`patterns.rs` lines 55-73). -/
def detect_dragonfly_doji (ohlc : List OHLC) : List Bool :=
  ohlc.map dragonflyDoji

/-- Per-candle test of `detect_gravestone_doji`
(`patterns.rs` lines 76-94). -/
def gravestoneDoji (c : OHLC) : Bool :=
  decide (0 < total_range c) &&
    (decide (body c < 0.05 * total_range c) &&
      (decide (0.7 * total_range c < upper_wick c) &&
        decide (lower_wick c < 0.05 * total_range c)))

/-- Embedding of `detect_gravestone_doji` (`patterns.rs` lines 76-94). -/
def detect_gravestone_doji (ohlc : List OHLC) : List Bool :=
  ohlc.map gravestoneDoji

/-! ### smc.rs -/

/-- Inner loop of `identify_swing_points` for swing highs
(`smc.rs` lines 35-41): true iff no other index of the window
`[i-legs, i+legs]` carries a high `≥ high[i]`. -/
def isSwingHigh (high : List ℚ) (legs i : ℕ) : Bool :=
  (List.range' (i - legs) (2 * legs + 1)).all fun j =>
    j == i || decide (high.getD j 0 < high.getD i 0)

/-- Inner loop of `identify_swing_points` for swing lows
(`smc.rs` lines 47-53). -/
def isSwingLow (low : List ℚ) (legs i : ℕ) : Bool :=
  (List.range' (i - legs) (2 * legs + 1)).all fun j =>
    j == i || decide (low.getD i 0 < low.getD j 0)

/-- Embedding of `identify_swing_points` (`smc.rs` lines 22-60). -/
def identify_swing_points (high low : List ℚ) (pivot_legs : ℕ) :
    List (Option ℚ) × List (Option ℚ) :=
  let len := high.length
  let window := 2 * pivot_legs + 1
  if len < window then
    (List.replicate len none, List.replicate len none)
  else
    ((List.range len).map fun i =>
        if pivot_legs ≤ i ∧ i < len - pivot_legs ∧ isSwingHigh high pivot_legs i then
          some (high.getD i 0)
        else none,
      (List.range len).map fun i =>
        if pivot_legs ≤ i ∧ i < len - pivot_legs ∧ isSwingLow low pivot_legs i then
          some (low.getD i 0)
        else none)

/-- Zone record of `detect_fvg_zones` (`smc.rs` lines 4-11). -/
structure FvgZone where
  zone_type : String
  top : ℚ
  bottom : ℚ
  index : ℕ
  gap_size : ℚ
deriving DecidableEq, Inhabited

/-- Zone record of `detect_order_block_zones` (`smc.rs` lines 13-19). -/
structure OrderBlockZone where
  zone_type : String
  top : ℚ
  bottom : ℚ
  index : ℕ
deriving DecidableEq, Inhabited

/-- Body of one iteration of the `detect_fvg_zones` loop
(`smc.rs` lines 71-95): the zones pushed at index `i`. -/
def fvgAt (ohlc : List OHLC) (i : ℕ) : List FvgZone :=
  let ci := ohlc.getD i default
  let c2 := ohlc.getD (i - 2) default
  (if c2.high < ci.low ∧ ci.opn < ci.close then
      [⟨"bullish", ci.low, c2.high, i, ci.low - c2.high⟩]
    else []) ++
  (if ci.high < c2.low ∧ ci.close < ci.opn then
      [⟨"bearish", c2.low, ci.high, i, c2.low - ci.high⟩]
    else [])

/-- Embedding of `detect_fvg_zones` (`smc.rs` lines 63-98). -/
def detect_fvg_zones (ohlc : List OHLC) : List FvgZone :=
  let len := ohlc.length
  if len < 3 then [] else (List.range' 2 (len - 2)).flatMap (fvgAt ohlc)

/-- Body of one iteration of the `detect_order_block_zones` loop
(`smc.rs` lines 109-137). -/
def obAt (ohlc : List OHLC) (i : ℕ) : List OrderBlockZone :=
  let prev := ohlc.getD (i - 1) default
  let curr := ohlc.getD i default
  (if prev.close < prev.opn ∧ curr.opn < curr.close ∧ prev.opn < curr.close then
      [⟨"bullish", prev.opn, prev.close, i - 1⟩]
    else []) ++
  (if prev.opn < prev.close ∧ curr.close < curr.opn ∧ curr.close < prev.opn then
      [⟨"bearish", prev.close, prev.opn, i - 1⟩]
    else [])

/-- Embedding of `detect_order_block_zones` (`smc.rs` lines 101-140). -/
def detect_order_block_zones (ohlc : List OHLC) : List OrderBlockZone :=
  let len := ohlc.length
  if len < 2 then [] else (List.range' 1 (len - 1)).flatMap (obAt ohlc)

/-- Embedding of the legacy boolean projection `detect_fvg`
(`smc.rs` lines 143-158): fold over the zones, marking the anchor index
in the bullish vector when `zone_type == "bullish"` and in the bearish
vector otherwise. -/
def detect_fvg (ohlc : List OHLC) : List Bool × List Bool :=
  let len := ohlc.length
  (detect_fvg_zones ohlc).foldl
    (fun p z =>
      if z.zone_type == "bullish" then (p.1.set z.index true, p.2)
      else (p.1, p.2.set z.index true))
    (List.replicate len false, List.replicate len false)

/-- Embedding of the legacy boolean projection `detect_order_blocks`
(`smc.rs` lines 161-176). -/
def detect_order_blocks (ohlc : List OHLC) : List Bool × List Bool :=
  let len := ohlc.length
  (detect_order_block_zones ohlc).foldl
    (fun p z =>
      if z.zone_type == "bullish" then (p.1.set z.index true, p.2)
      else (p.1, p.2.set z.index true))
    (List.replicate len false, List.replicate len false)

/-- Rolling minimum of `low[i-lookback..i]` as folded by
`detect_liquidity_sweep` (`smc.rs` line 196), starting from
`f64::INFINITY` (modelled by `⊤`).  Only used for `lookback ≤ i`, where
the slice has exactly `lookback` elements. -/
def rollingMin (low : List ℚ) (lookback i : ℕ) : WithTop ℚ :=
  ((low.drop (i - lookback)).take lookback).foldl
    (fun (acc : WithTop ℚ) (x : ℚ) => min acc (x : WithTop ℚ)) ⊤

/-- Rolling maximum of `high[i-lookback..i]` as folded by
`detect_liquidity_sweep` (`smc.rs` line 197), starting from
`f64::NEG_INFINITY` (modelled by `⊥`). -/
def rollingMax (high : List ℚ) (lookback i : ℕ) : WithBot ℚ :=
  ((high.drop (i - lookback)).take lookback).foldl
    (fun (acc : WithBot ℚ) (x : ℚ) => max acc (x : WithBot ℚ)) ⊥

/-- Embedding of `detect_liquidity_sweep` (`smc.rs` lines 179-211). -/
def detect_liquidity_sweep (high low close : List ℚ) (lookback : ℕ) :
    List Bool × List Bool :=
  let len := high.length
  if len < lookback + 2 then
    (List.replicate len false, List.replicate len false)
  else
    ((List.range len).map fun i =>
        decide (lookback ≤ i) &&
          (decide ((low.getD i 0 : WithTop ℚ) < rollingMin low lookback i) &&
            decide (rollingMin low lookback i < (close.getD i 0 : WithTop ℚ))),
      (List.range len).map fun i =>
        decide (lookback ≤ i) &&
          (decide (rollingMax high lookback i < (high.getD i 0 : WithBot ℚ)) &&
            decide ((close.getD i 0 : WithBot ℚ) < rollingMax high lookback i)))

/-! ### sr_zones.rs -/

/-- Zone record of `identify_sr_zones` (`sr_zones.rs` lines 3-11). -/
structure SrZone where
  level : ℚ
  zone_type : String
  strength : ℕ
  top : ℚ
  bottom : ℚ
  distance : ℚ
deriving DecidableEq, Inhabited

/-- Rounding of `f64::round` (half away from zero), as used in
`(x * 100.0).round() / 100.0`. -/
def rustRound (q : ℚ) : ℤ :=
  if 0 ≤ q then ⌊q + 1 / 2⌋ else ⌈q - 1 / 2⌉

/-- Rounding to two decimal places, `(x * 100.0).round() / 100.0`
(`sr_zones.rs` lines 82-86). -/
def roundTo2 (q : ℚ) : ℚ := (rustRound (q * 100) : ℚ) / 100

/-- Collection of all present swing values, highs first then lows, in
index order (`sr_zones.rs` lines 21-33). -/
def flatten_levels (swing_highs swing_lows : List (Option ℚ)) : List ℚ :=
  swing_highs.filterMap id ++ swing_lows.filterMap id

/-- Inner loop of the clustering pass (`sr_zones.rs` lines 52-62):
indices `j > i` of still-unclaimed values within the seed tolerance. -/
def collectCluster (a : List ℚ) (used : List Bool) (lvl tol : ℚ) (i : ℕ) : List ℕ :=
  (List.range' (i + 1) (a.length - (i + 1))).filter fun j =>
    !(used.getD j false) && decide (|a.getD j 0 - lvl| ≤ tol)

/-- Claim all indices of a kept cluster (`sr_zones.rs` lines 90-93). -/
def markUsed (used : List Bool) (idxs : List ℕ) : List Bool :=
  idxs.foldl (fun u j => u.set j true) used

/-- Outer clustering loop of `identify_sr_zones`
(`sr_zones.rs` lines 42-95), with explicit fuel `rem = a.length - i`.
Returns the kept clusters (as lists of indices into `a`, seed first) and
the final `used_indices` vector. -/
def clusterStep (a : List ℚ) (zt : ℚ) (mt : ℕ) :
    ℕ → ℕ → List Bool → List (List ℕ) × List Bool
  | 0, _, used => ([], used)
  | rem + 1, i, used =>
    if used.getD i false then clusterStep a zt mt rem (i + 1) used
    else
      let lvl := a.getD i 0
      let cidx := i :: collectCluster a used lvl (lvl * zt) i
      if mt ≤ cidx.length then
        let res := clusterStep a zt mt rem (i + 1) (markUsed used cidx)
        (cidx :: res.1, res.2)
      else clusterStep a zt mt rem (i + 1) used

/-- Kept clusters of the clustering pass, as index lists. -/
def keptClusters (a : List ℚ) (zt : ℚ) (mt : ℕ) : List (List ℕ) :=
  (clusterStep a zt mt a.length 0 (List.replicate a.length false)).1

/-- Final `used_indices` vector of the clustering pass. -/
def finalUsed (a : List ℚ) (zt : ℚ) (mt : ℕ) : List Bool :=
  (clusterStep a zt mt a.length 0 (List.replicate a.length false)).2

/-- Values of a cluster given by its index list. -/
def clusterVals (a : List ℚ) (c : List ℕ) : List ℚ :=
  c.map fun j => a.getD j 0

/-- Maximum of a cluster as the source computes it
(`sr_zones.rs` lines 68-73): fold of `max` over the whole cluster
starting from `cluster[0]`. -/
def clusterMax (c : List ℚ) : ℚ := c.foldl max (c.headD 0)

/-- Minimum of a cluster as the source computes it
(`sr_zones.rs` lines 68-73). -/
def clusterMin (c : List ℚ) : ℚ := c.foldl min (c.headD 0)

/-- Zone built from a kept cluster (`sr_zones.rs` lines 64-88).  The
type and distance use the unrounded mean `zone_level`; only the
reported `level`, `top` and `bottom` are rounded. -/
def mkZone (price : ℚ) (c : List ℚ) : SrZone :=
  let zone_level := c.sum / c.length
  { level := roundTo2 zone_level
    zone_type := if zone_level < price then "support" else "resistance"
    strength := c.length
    top := roundTo2 (clusterMax c)
    bottom := roundTo2 (clusterMin c)
    distance := |price - zone_level| }

/-- Zones of all kept clusters, in cluster order, before ranking. -/
def rawZones (sh sl : List (Option ℚ)) (price zt : ℚ) (mt : ℕ) : List SrZone :=
  let a := flatten_levels sh sl
  (keptClusters a zt mt).map fun c => mkZone price (clusterVals a c)

/-- Comparator of the strength sort (`sr_zones.rs` line 98):
`b.strength.cmp(&a.strength)`, i.e. descending strength. -/
def strengthDesc (x y : SrZone) : Bool := decide (y.strength ≤ x.strength)

/-- Comparator of the distance sort (`sr_zones.rs` line 106):
ascending distance. -/
def distanceAsc (x y : SrZone) : Bool := decide (x.distance ≤ y.distance)

/-- Embedding of `identify_sr_zones` (`sr_zones.rs` lines 14-109):
cluster, rank by strength descending, keep the top 5, then sort the
survivors by distance ascending.  Rust `Vec::sort_by` and Lean
`List.mergeSort` are both stable, so the embedding matches the source
order exactly.  The early return on an empty flattened list equals
running the loop zero times. -/
def identify_sr_zones (sh sl : List (Option ℚ)) (price zt : ℚ) (mt : ℕ) :
    List SrZone :=
  (((rawZones sh sl price zt mt).mergeSort strengthDesc).take 5).mergeSort distanceAsc

/-! ### General list helpers -/

theorem getD_map_range {α : Type} (f : ℕ → α) (n i : ℕ) (d : α) :
    ((List.range n).map f).getD i d = if i < n then f i else d := by
  rw [List.getD_eq_getElem?_getD, List.getElem?_map]
  by_cases h : i < n
  · rw [List.getElem?_range h]
    simp [h]
  · rw [List.getElem?_eq_none]
    · simp [h]
    · simpa using Nat.le_of_not_lt h

theorem getD_replicate {α : Type} (n i : ℕ) (a d : α) :
    (List.replicate n a).getD i d = if i < n then a else d := by
  rw [List.getD_eq_getElem?_getD]
  by_cases h : i < n
  · rw [List.getElem?_replicate_of_lt h]
    simp [h]
  · rw [List.getElem?_eq_none]
    · simp [h]
    · simpa using Nat.le_of_not_lt h

/-! ### C9: dragonfly and gravestone doji are mutually exclusive -/

theorem wick_decomposition (c : OHLC) :
    upper_wick c + lower_wick c + body c = total_range c := by
  have hb : body c = max c.close c.opn - min c.close c.opn := by
    rw [body, abs_sub_comm]
    exact (max_sub_min_eq_abs c.close c.opn).symm
  rw [hb, upper_wick, lower_wick, total_range]
  ring

theorem dragonfly_gravestone_candle (c : OHLC) :
    (dragonflyDoji c && gravestoneDoji c) = false := by
  by_contra h
  rw [Bool.and_eq_false_iff] at h
  push_neg at h
  obtain ⟨hd, hg⟩ := h
  rw [Bool.ne_false_iff] at hd hg
  simp only [dragonflyDoji, Bool.and_eq_true, decide_eq_true_eq] at hd
  simp only [gravestoneDoji, Bool.and_eq_true, decide_eq_true_eq] at hg
  have hsum := wick_decomposition c
  have hbody : 0 ≤ body c := abs_nonneg _
  have h1 : 0 < total_range c := hd.1
  have h2 : 0.7 * total_range c < lower_wick c := hd.2.2.1
  have h3 : 0.7 * total_range c < upper_wick c := hg.2.2.1
  nlinarith

/-- C9: at no index do `detect_dragonfly_doji` and
`detect_gravestone_doji` both fire: each requires its wick to exceed
`0.7 * range`, while `upper_wick + lower_wick ≤ range`, which is
impossible when `range > 0`, and neither fires when `range ≤ 0`. -/
theorem doji_mutually_exclusive (ohlc : List OHLC) (i : ℕ) :
    ((detect_dragonfly_doji ohlc).getD i false &&
      (detect_gravestone_doji ohlc).getD i false) = false := by
  rw [detect_dragonfly_doji, detect_gravestone_doji,
    List.getD_eq_getElem?_getD, List.getD_eq_getElem?_getD,
    List.getElem?_map, List.getElem?_map]
  cases h : ohlc[i]? with
  | none => simp
  | some c => simpa using dragonfly_gravestone_candle c

/-! ### C6: ATR on a constant candle series -/

theorem true_range_const (c : ℚ) (n : ℕ) (j : ℕ) (h1 : 1 ≤ j) (h2 : j < n) :
    true_range (List.replicate n c) (List.replicate n c) (List.replicate n c) j = 0 := by
  have hj : (List.replicate n c).getD j 0 = c := by
    rw [getD_replicate]
    simp [h2]
  have hj1 : (List.replicate n c).getD (j - 1) 0 = c := by
    rw [getD_replicate]
    simp [lt_of_le_of_lt (Nat.sub_le j 1) h2]
  rw [true_range, hj, hj1]
  simp

theorem atrAux_const (c : ℚ) (n period : ℕ) (alpha : ℚ) (k : ℕ)
    (hk : period + k < n) :
    atrAux (List.replicate n c) (List.replicate n c) (List.replicate n c)
      period alpha k = 0 := by
  induction k with
  | zero =>
    rw [atrAux]
    have hmap : (List.range' 1 period).map
        (true_range (List.replicate n c) (List.replicate n c) (List.replicate n c)) =
        List.replicate period 0 := by
      rw [List.eq_replicate_iff]
      constructor
      · simp
      · intro x hx
        rw [List.mem_map] at hx
        obtain ⟨j, hj, rfl⟩ := hx
        rw [List.mem_range'_1] at hj
        exact true_range_const c n j hj.1
          (lt_of_lt_of_le hj.2 (by omega))
    rw [hmap]
    simp
  | succ m ih =>
    rw [atrAux, ih (by omega), true_range_const c n (period + m + 1) (by omega) (by omega)]
    ring

/-- C6 (amended): on a fully constant candle series
(`high = low = close = c` at every index), for every `period ≥ 1`,
`calculate_atr` returns an all-zero sequence, at the warm-up indices
and at every defined index alike.  The bound `period ≥ 1` is required:
at `period = 0` the source's seed division is `0.0/0.0 = NaN`, a path
the exact-arithmetic model does not reproduce. -/
theorem calculate_atr_const (c : ℚ) (n period : ℕ) (hp : 1 ≤ period) :
    calculate_atr (List.replicate n c) (List.replicate n c) (List.replicate n c) period =
      List.replicate n 0 := by
  rw [calculate_atr]
  simp only [List.length_replicate]
  by_cases h : n < period + 1
  · simp [h]
  · rw [if_neg h]
    rw [List.eq_replicate_iff]
    refine ⟨by simp, ?_⟩
    intro x hx
    rw [List.mem_map] at hx
    obtain ⟨i, hi, rfl⟩ := hx
    rw [List.mem_range] at hi
    by_cases hip : i < period
    · simp [hip]
    · rw [if_neg hip]
      exact atrAux_const c n period _ (i - period) (by omega)

/-- C6 witness: a constant three-candle series at price 7 with
`period = 1` evaluates to the all-zero ATR sequence. -/
theorem calculate_atr_const_witness :
    (1 ≤ 1) ∧
      calculate_atr (List.replicate 3 (7 : ℚ)) (List.replicate 3 7)
        (List.replicate 3 7) 1 = List.replicate 3 0 :=
  ⟨le_refl 1, calculate_atr_const 7 3 1 (le_refl 1)⟩

/-- C6 (counterexample to the literal claim): with all closes equal but
a non-degenerate high/low spread, ATR at the first defined index is 10,
not 0. -/
theorem calculate_atr_const_close_cex :
    (calculate_atr [5, 15] [5, 5] [(5 : ℚ), 5] 1).getD 1 0 = 10 ∧ (10 : ℚ) ≠ 0 := by
  constructor
  · rw [calculate_atr]
    norm_num [atrAux, true_range, List.range']
  · norm_num

/-! ### C7: fixed-shape outputs and degradation on short inputs -/

theorem calculate_ema_length (prices : List ℚ) (period : ℕ) :
    (calculate_ema prices period).length = prices.length := by
  rw [calculate_ema]
  by_cases h : prices.length < period <;> simp [h]

theorem calculate_rsi_length (prices : List ℚ) (period : ℕ) :
    (calculate_rsi prices period).length = prices.length := by
  rw [calculate_rsi]
  by_cases h : prices.length < period + 1 <;> simp [h]

theorem calculate_atr_length (high low close : List ℚ) (period : ℕ) :
    (calculate_atr high low close period).length = high.length := by
  rw [calculate_atr]
  by_cases h : high.length < period + 1 <;> simp [h]

/-- C7: for every period, a series shorter than the warm-up window
(`period` for EMA, `period + 1` for RSI and ATR) yields the all-zero
sequence of the input length, and on valid inputs (equal-length arrays,
`period ≥ 1`) all three functions return a sequence of exactly the
input length. -/
theorem indicator_shapes (prices high low close : List ℚ) (period : ℕ)
    (hp : 1 ≤ period) (hl : low.length = high.length)
    (hc : close.length = high.length) :
    (prices.length < period →
      calculate_ema prices period = List.replicate prices.length 0) ∧
    (prices.length < period + 1 →
      calculate_rsi prices period = List.replicate prices.length 0) ∧
    (high.length < period + 1 →
      calculate_atr high low close period = List.replicate high.length 0) ∧
    (calculate_ema prices period).length = prices.length ∧
    (calculate_rsi prices period).length = prices.length ∧
    (calculate_atr high low close period).length = high.length := by
  refine ⟨?_, ?_, ?_, calculate_ema_length .., calculate_rsi_length ..,
    calculate_atr_length ..⟩
  · intro h
    rw [calculate_ema, if_pos h]
  · intro h
    rw [calculate_rsi, if_pos h]
  · intro h
    rw [calculate_atr, if_pos h]

theorem indicator_shapes_witness :
    calculate_ema [(5 : ℚ)] 2 = List.replicate 1 0 ∧
      calculate_rsi [(5 : ℚ)] 2 = List.replicate 1 0 ∧
      calculate_atr [(4 : ℚ)] [4] [4] 2 = List.replicate 1 0 := by
  have h := indicator_shapes [(5 : ℚ)] [(4 : ℚ)] [4] [4] 2 (by norm_num) rfl rfl
  exact ⟨h.1 (by norm_num), h.2.1 (by norm_num), h.2.2.1 (by norm_num)⟩

/-! ### C3: swing point characterization -/

theorem isSwingHigh_iff (high : List ℚ) (legs i : ℕ) (hi : legs ≤ i) :
    isSwingHigh high legs i = true ↔
      ∀ j, i - legs ≤ j → j ≤ i + legs → j ≠ i → high.getD j 0 < high.getD i 0 := by
  rw [isSwingHigh, List.all_eq_true]
  constructor
  · intro h j hj1 hj2 hne
    have hmem : j ∈ List.range' (i - legs) (2 * legs + 1) := by
      rw [List.mem_range'_1]
      omega
    have hj := h j hmem
    rw [Bool.or_eq_true, beq_iff_eq, decide_eq_true_eq] at hj
    exact hj.resolve_left hne
  · intro h j hmem
    rw [List.mem_range'_1] at hmem
    rw [Bool.or_eq_true, beq_iff_eq, decide_eq_true_eq]
    by_cases hji : j = i
    · exact Or.inl hji
    · exact Or.inr (h j hmem.1 (by omega) hji)

theorem isSwingLow_iff (low : List ℚ) (legs i : ℕ) (hi : legs ≤ i) :
    isSwingLow low legs i = true ↔
      ∀ j, i - legs ≤ j → j ≤ i + legs → j ≠ i → low.getD i 0 < low.getD j 0 := by
  rw [isSwingLow, List.all_eq_true]
  constructor
  · intro h j hj1 hj2 hne
    have hmem : j ∈ List.range' (i - legs) (2 * legs + 1) := by
      rw [List.mem_range'_1]
      omega
    have hj := h j hmem
    rw [Bool.or_eq_true, beq_iff_eq, decide_eq_true_eq] at hj
    exact hj.resolve_left hne
  · intro h j hmem
    rw [List.mem_range'_1] at hmem
    rw [Bool.or_eq_true, beq_iff_eq, decide_eq_true_eq]
    by_cases hji : j = i
    · exact Or.inl hji
    · exact Or.inr (h j hmem.1 (by omega) hji)

/-- C3: swing points are absent at the first and last `legs` indices,
and at an interior index the swing high (resp. low) is `some high[i]`
(resp. `some low[i]`) exactly when `high[i]` is strictly greater (resp.
`low[i]` strictly smaller) than every other value of the window
`[i-legs, i+legs]`; ties disqualify, and any present value is the
candle's own value. -/
theorem identify_swing_points_spec (high low : List ℚ) (legs : ℕ)
    (hlen : low.length = high.length) :
    ((identify_swing_points high low legs).1.length = high.length ∧
      (identify_swing_points high low legs).2.length = high.length) ∧
    (∀ i, i < legs ∨ high.length - legs ≤ i →
      (identify_swing_points high low legs).1.getD i none = none ∧
        (identify_swing_points high low legs).2.getD i none = none) ∧
    (∀ i, legs ≤ i → i < high.length - legs →
      ((identify_swing_points high low legs).1.getD i none = some (high.getD i 0) ↔
        ∀ j, i - legs ≤ j → j ≤ i + legs → j ≠ i → high.getD j 0 < high.getD i 0) ∧
      ((identify_swing_points high low legs).1.getD i none = none ∨
        (identify_swing_points high low legs).1.getD i none = some (high.getD i 0)) ∧
      ((identify_swing_points high low legs).2.getD i none = some (low.getD i 0) ↔
        ∀ j, i - legs ≤ j → j ≤ i + legs → j ≠ i → low.getD i 0 < low.getD j 0) ∧
      ((identify_swing_points high low legs).2.getD i none = none ∨
        (identify_swing_points high low legs).2.getD i none = some (low.getD i 0))) := by
  rw [identify_swing_points]
  by_cases hsz : high.length < 2 * legs + 1
  · rw [if_pos hsz]
    refine ⟨⟨by simp, by simp⟩, ?_, ?_⟩
    · intro i _
      constructor <;> (rw [getD_replicate]; split <;> rfl)
    · intro i h1 h2
      omega
  · rw [if_neg hsz]
    refine ⟨⟨by simp, by simp⟩, ?_, ?_⟩
    · intro i hi
      rw [getD_map_range, getD_map_range]
      constructor
      · split
        · rw [if_neg]
          omega
        · rfl
      · split
        · rw [if_neg]
          omega
        · rfl
    · intro i h1 h2
      have hilen : i < high.length := by omega
      rw [getD_map_range, getD_map_range, if_pos hilen, if_pos hilen]
      refine ⟨?_, ?_, ?_, ?_⟩
      · constructor
        · intro h
          rw [(isSwingHigh_iff high legs i h1).symm]
          by_contra hns
          rw [if_neg (by simpa [h1, h2] using hns)] at h
          exact Option.noConfusion h
        · intro h
          rw [if_pos ⟨h1, h2, (isSwingHigh_iff high legs i h1).mpr h⟩]
      · split
        · exact Or.inr rfl
        · exact Or.inl rfl
      · constructor
        · intro h
          rw [(isSwingLow_iff low legs i h1).symm]
          by_contra hns
          rw [if_neg (by simpa [h1, h2] using hns)] at h
          exact Option.noConfusion h
        · intro h
          rw [if_pos ⟨h1, h2, (isSwingLow_iff low legs i h1).mpr h⟩]
      · split
        · exact Or.inr rfl
        · exact Or.inl rfl

/-- C3 witness: the strictly unimodal high array of length 11 with its
single maximum at index 5 and `legs = 5` has a swing high exactly at
index 5. -/
theorem identify_swing_points_witness :
    (identify_swing_points [0, 1, 2, 3, 4, 10, 4, 3, 2, 1, 0]
        [0, 0, 0, 0, 0, 0, 0, 0, 0, 0, 0] 5).1.getD 5 none = some 10 ∧
      (identify_swing_points [0, 1, 2, 3, 4, 10, 4, 3, 2, 1, 0]
        [0, 0, 0, 0, 0, 0, 0, 0, 0, 0, 0] 5).1.getD 0 none = none ∧
      (identify_swing_points [0, 1, 2, 3, 4, 10, 4, 3, 2, 1, 0]
        [0, 0, 0, 0, 0, 0, 0, 0, 0, 0, 0] 5).1.getD 10 none = none := by
  have h := identify_swing_points_spec [0, 1, 2, 3, 4, 10, 4, 3, 2, 1, 0]
    [0, 0, 0, 0, 0, 0, 0, 0, 0, 0, 0] 5 rfl
  refine ⟨?_, ?_, ?_⟩
  · have h5 := (h.2.2 5 (by norm_num) (by norm_num)).1
    have : ([(0 : ℚ), 1, 2, 3, 4, 10, 4, 3, 2, 1, 0].getD 5 0) = 10 := by rfl
    rw [this] at h5
    refine h5.mpr ?_
    intro j hj1 hj2 hne
    interval_cases j <;> first | exact absurd rfl hne | decide
  · exact (h.2.1 0 (Or.inl (by norm_num))).1
  · exact (h.2.1 10 (Or.inr (by norm_num))).1

/-! ### C8: boolean flags are projections of the zone records -/

theorem getD_set {α : Type} (l : List α) (i k : ℕ) (b d : α) :
    (l.set i b).getD k d = if i = k ∧ k < l.length then b else l.getD k d := by
  rw [List.getD_eq_getElem?_getD, List.getD_eq_getElem?_getD]
  by_cases hik : i = k
  · subst hik
    by_cases hlt : i < l.length
    · rw [List.getElem?_set_self (h := hlt)]
      simp [hlt]
    · rw [List.set_eq_of_length_le (Nat.le_of_not_lt hlt)]
      simp [hlt]
  · rw [List.getElem?_set_ne hik]
    simp [hik]

theorem foldl_flags_length {α : Type} (ty : α → Bool) (ix : α → ℕ) (l : List α)
    (p : List Bool × List Bool) :
    (l.foldl (fun p z =>
        if ty z then (p.1.set (ix z) true, p.2) else (p.1, p.2.set (ix z) true)) p).1.length =
        p.1.length ∧
    (l.foldl (fun p z =>
        if ty z then (p.1.set (ix z) true, p.2) else (p.1, p.2.set (ix z) true)) p).2.length =
        p.2.length := by
  induction l generalizing p with
  | nil => exact ⟨rfl, rfl⟩
  | cons a l ih =>
    rw [List.foldl_cons]
    refine ⟨?_, ?_⟩ <;>
      · rcases ih (if ty a then (p.1.set (ix a) true, p.2) else (p.1, p.2.set (ix a) true))
          with ⟨h1, h2⟩
        first
        | (rw [h1]; split <;> simp)
        | (rw [h2]; split <;> simp)

theorem foldl_flags_getD {α : Type} (ty : α → Bool) (ix : α → ℕ) (l : List α)
    (p : List Bool × List Bool) (k : ℕ) :
    ((l.foldl (fun p z =>
        if ty z then (p.1.set (ix z) true, p.2) else (p.1, p.2.set (ix z) true)) p).1.getD k
          false = true ↔
      p.1.getD k false = true ∨ ∃ z ∈ l, ty z = true ∧ ix z = k ∧ k < p.1.length) ∧
    ((l.foldl (fun p z =>
        if ty z then (p.1.set (ix z) true, p.2) else (p.1, p.2.set (ix z) true)) p).2.getD k
          false = true ↔
      p.2.getD k false = true ∨ ∃ z ∈ l, ty z = false ∧ ix z = k ∧ k < p.2.length) := by
  induction l generalizing p with
  | nil => simp
  | cons a l ih =>
    rw [List.foldl_cons]
    rcases ih (if ty a then (p.1.set (ix a) true, p.2) else (p.1, p.2.set (ix a) true))
      with ⟨ih1, ih2⟩
    constructor
    · rw [ih1]
      by_cases hty : ty a
      · rw [if_pos hty]
        simp only [getD_set]
        constructor
        · rintro (h | h)
          · split at h
            · exact Or.inr ⟨a, List.mem_cons_self .., hty, by omega, by omega⟩
            · exact Or.inl h
          · obtain ⟨z, hz, h1, h2, h3⟩ := h
            exact Or.inr ⟨z, List.mem_cons_of_mem _ hz, h1, h2, by simpa using h3⟩
        · rintro (h | ⟨z, hz, h1, h2, h3⟩)
          · refine Or.inl ?_
            split
            · rfl
            · exact h
          · rcases List.mem_cons.mp hz with rfl | hz
            · exact Or.inl (by rw [if_pos ⟨h2, h3⟩])
            · exact Or.inr ⟨z, hz, h1, h2, by simpa using h3⟩
      · rw [if_neg hty]
        constructor
        · rintro (h | ⟨z, hz, h1, h2, h3⟩)
          · exact Or.inl h
          · exact Or.inr ⟨z, List.mem_cons_of_mem _ hz, h1, h2, h3⟩
        · rintro (h | ⟨z, hz, h1, h2, h3⟩)
          · exact Or.inl h
          · rcases List.mem_cons.mp hz with rfl | hz
            · exact absurd h1 (by simpa using hty)
            · exact Or.inr ⟨z, hz, h1, h2, h3⟩
    · rw [ih2]
      by_cases hty : ty a
      · rw [if_pos hty]
        constructor
        · rintro (h | ⟨z, hz, h1, h2, h3⟩)
          · exact Or.inl h
          · exact Or.inr ⟨z, List.mem_cons_of_mem _ hz, h1, h2, h3⟩
        · rintro (h | ⟨z, hz, h1, h2, h3⟩)
          · exact Or.inl h
          · rcases List.mem_cons.mp hz with rfl | hz
            · exact absurd h1 (by simp [hty])
            · exact Or.inr ⟨z, hz, h1, h2, h3⟩
      · rw [if_neg hty]
        simp only [getD_set]
        constructor
        · rintro (h | h)
          · split at h
            · exact Or.inr ⟨a, List.mem_cons_self .., by simpa using hty, by omega, by omega⟩
            · exact Or.inl h
          · obtain ⟨z, hz, h1, h2, h3⟩ := h
            exact Or.inr ⟨z, List.mem_cons_of_mem _ hz, h1, h2, by simpa using h3⟩
        · rintro (h | ⟨z, hz, h1, h2, h3⟩)
          · refine Or.inl ?_
            split
            · rfl
            · exact h
          · rcases List.mem_cons.mp hz with rfl | hz
            · exact Or.inl (by rw [if_pos ⟨h2, h3⟩])
            · exact Or.inr ⟨z, hz, h1, h2, by simpa using h3⟩

theorem mem_detect_fvg_zones (ohlc : List OHLC) (z : FvgZone)
    (hz : z ∈ detect_fvg_zones ohlc) :
    (z.zone_type = "bullish" ∨ z.zone_type = "bearish") ∧ z.index < ohlc.length := by
  rw [detect_fvg_zones] at hz
  split at hz
  · exact absurd hz (List.not_mem_nil z)
  · rw [List.mem_flatMap] at hz
    obtain ⟨i, hi, hzi⟩ := hz
    rw [List.mem_range'_1] at hi
    rw [fvgAt, List.mem_append] at hzi
    rcases hzi with h | h <;> split at h <;>
      simp only [List.mem_singleton, List.not_mem_nil] at h <;>
      first
      | exact False.elim h
      | (subst h; exact ⟨by simp, by simp; omega⟩)

theorem mem_detect_order_block_zones (ohlc : List OHLC) (z : OrderBlockZone)
    (hz : z ∈ detect_order_block_zones ohlc) :
    (z.zone_type = "bullish" ∨ z.zone_type = "bearish") ∧ z.index < ohlc.length := by
  rw [detect_order_block_zones] at hz
  split at hz
  · exact absurd hz (List.not_mem_nil z)
  · rw [List.mem_flatMap] at hz
    obtain ⟨i, hi, hzi⟩ := hz
    rw [List.mem_range'_1] at hi
    rw [obAt, List.mem_append] at hzi
    rcases hzi with h | h <;> split at h <;>
      simp only [List.mem_singleton, List.not_mem_nil] at h <;>
      first
      | exact False.elim h
      | (subst h; exact ⟨by simp, by simp; omega⟩)

/-- C8: the boolean outputs of `detect_fvg` and `detect_order_blocks`
are exactly the anchor-index projections of the zone records: the
bullish (resp. bearish) flag is true at `k` iff some zone of that type
has anchor index `k`. -/
theorem flags_are_zone_projections (ohlc : List OHLC) (k : ℕ) :
    ((detect_fvg ohlc).1.getD k false = true ↔
      ∃ z ∈ detect_fvg_zones ohlc, z.zone_type = "bullish" ∧ z.index = k) ∧
    ((detect_fvg ohlc).2.getD k false = true ↔
      ∃ z ∈ detect_fvg_zones ohlc, z.zone_type = "bearish" ∧ z.index = k) ∧
    ((detect_order_blocks ohlc).1.getD k false = true ↔
      ∃ z ∈ detect_order_block_zones ohlc, z.zone_type = "bullish" ∧ z.index = k) ∧
    ((detect_order_blocks ohlc).2.getD k false = true ↔
      ∃ z ∈ detect_order_block_zones ohlc, z.zone_type = "bearish" ∧ z.index = k) := by
  have hrep : ∀ n, (List.replicate n false).getD k false = false := by
    intro n
    rw [getD_replicate]
    split <;> rfl
  have hfvg := foldl_flags_getD (fun z : FvgZone => z.zone_type == "bullish")
    (fun z : FvgZone => z.index) (detect_fvg_zones ohlc)
    (List.replicate ohlc.length false, List.replicate ohlc.length false) k
  have hob := foldl_flags_getD (fun z : OrderBlockZone => z.zone_type == "bullish")
    (fun z : OrderBlockZone => z.index) (detect_order_block_zones ohlc)
    (List.replicate ohlc.length false, List.replicate ohlc.length false) k
  refine ⟨?_, ?_, ?_, ?_⟩
  · rw [detect_fvg, hfvg.1]
    simp only [hrep, Bool.false_eq_true, false_or, List.length_replicate, beq_iff_eq]
    constructor
    · rintro ⟨z, hz, h1, h2, h3⟩
      exact ⟨z, hz, h1, h2⟩
    · rintro ⟨z, hz, h1, h2⟩
      exact ⟨z, hz, h1, h2, h2 ▸ (mem_detect_fvg_zones ohlc z hz).2⟩
  · rw [detect_fvg, hfvg.2]
    simp only [hrep, Bool.false_eq_true, false_or, List.length_replicate]
    constructor
    · rintro ⟨z, hz, h1, h2, h3⟩
      have := (mem_detect_fvg_zones ohlc z hz).1
      refine ⟨z, hz, ?_, h2⟩
      rcases this with h | h
      · exact absurd (by simpa using h) (by simpa using h1)
      · exact h
    · rintro ⟨z, hz, h1, h2⟩
      refine ⟨z, hz, ?_, h2, h2 ▸ (mem_detect_fvg_zones ohlc z hz).2⟩
      simp [h1]
  · rw [detect_order_blocks, hob.1]
    simp only [hrep, Bool.false_eq_true, false_or, List.length_replicate, beq_iff_eq]
    constructor
    · rintro ⟨z, hz, h1, h2, h3⟩
      exact ⟨z, hz, h1, h2⟩
    · rintro ⟨z, hz, h1, h2⟩
      exact ⟨z, hz, h1, h2, h2 ▸ (mem_detect_order_block_zones ohlc z hz).2⟩
  · rw [detect_order_blocks, hob.2]
    simp only [hrep, Bool.false_eq_true, false_or, List.length_replicate]
    constructor
    · rintro ⟨z, hz, h1, h2, h3⟩
      have := (mem_detect_order_block_zones ohlc z hz).1
      refine ⟨z, hz, ?_, h2⟩
      rcases this with h | h
      · exact absurd (by simpa using h) (by simpa using h1)
      · exact h
    · rintro ⟨z, hz, h1, h2⟩
      refine ⟨z, hz, ?_, h2, h2 ▸ (mem_detect_order_block_zones ohlc z hz).2⟩
      simp [h1]

/-! ### C5: RSI stays in [0, 100] -/

theorem gains_nonneg (prices : List ℚ) (i : ℕ) : 0 ≤ gains prices i := by
  rw [gains]
  split
  · linarith
  · exact le_refl 0

theorem losses_nonneg (prices : List ℚ) (i : ℕ) : 0 ≤ losses prices i := by
  rw [losses]
  split
  · exact le_refl 0
  · linarith [not_lt.mp (by assumption : ¬0 < change prices i)]

theorem initAvg_nonneg (g : ℕ → ℚ) (period : ℕ) (hg : ∀ i, 0 ≤ g i) :
    0 ≤ initAvg g period := by
  rw [initAvg]
  apply div_nonneg
  · apply List.sum_nonneg
    intro x hx
    rw [List.mem_map] at hx
    obtain ⟨j, _, rfl⟩ := hx
    exact hg j
  · positivity

theorem wilderAvg_nonneg (g : ℕ → ℚ) (period : ℕ) (alpha : ℚ)
    (hg : ∀ i, 0 ≤ g i) (h0 : 0 ≤ alpha) (h1 : alpha ≤ 1) (n : ℕ) :
    0 ≤ wilderAvg g period alpha n := by
  induction n with
  | zero =>
    rw [wilderAvg]
    have hinit := initAvg_nonneg g period hg
    nlinarith [hg period]
  | succ m ih =>
    rw [wilderAvg]
    nlinarith [hg (period + m + 1)]

theorem rsi_val_bounds (ag al : ℚ) (hag : 0 ≤ ag) (hal : 0 < al) :
    0 ≤ 100 - 100 / (1 + ag / al) ∧ 100 - 100 / (1 + ag / al) < 100 := by
  have hrs : 0 ≤ ag / al := div_nonneg hag hal.le
  have h1 : (0 : ℚ) < 1 + ag / al := by linarith
  have hle : 100 / (1 + ag / al) ≤ 100 := by
    rw [div_le_iff₀ h1]
    nlinarith
  have hpos : 0 < 100 / (1 + ag / al) := by positivity
  constructor <;> linarith

/-- C5: interpreting the arithmetic exactly, each RSI entry is either
the warm-up sentinel 0, the saturating 100 when the smoothed average
loss is exactly 0, or `100 - 100/(1 + avg_gain/avg_loss)`, which lies
in `[0, 100)`; hence every entry lies in `[0, 100]`. -/
theorem calculate_rsi_range (prices : List ℚ) (period : ℕ) (hp : 1 ≤ period) :
    (calculate_rsi prices period).length = prices.length ∧
    (∀ i, i < period → (calculate_rsi prices period).getD i 0 = 0) ∧
    (prices.length < period + 1 →
      calculate_rsi prices period = List.replicate prices.length 0) ∧
    (∀ i, period ≤ i → i < prices.length → period + 1 ≤ prices.length →
      (wilderAvg (losses prices) period (1 / (period : ℚ)) (i - period) = 0 →
        (calculate_rsi prices period).getD i 0 = 100) ∧
      (wilderAvg (losses prices) period (1 / (period : ℚ)) (i - period) ≠ 0 →
        (calculate_rsi prices period).getD i 0 =
          100 - 100 / (1 + wilderAvg (gains prices) period (1 / (period : ℚ)) (i - period) /
            wilderAvg (losses prices) period (1 / (period : ℚ)) (i - period)) ∧
        0 ≤ (calculate_rsi prices period).getD i 0 ∧
        (calculate_rsi prices period).getD i 0 < 100)) ∧
    (∀ x ∈ calculate_rsi prices period, 0 ≤ x ∧ x ≤ 100) := by
  have halpha0 : (0 : ℚ) ≤ 1 / (period : ℚ) := by positivity
  have halpha1 : (1 : ℚ) / (period : ℚ) ≤ 1 := by
    rw [div_le_one (by exact_mod_cast hp)]
    exact_mod_cast hp
  have hlnonneg := wilderAvg_nonneg (losses prices) period (1 / (period : ℚ))
    (losses_nonneg prices) halpha0 halpha1
  have hgnonneg := wilderAvg_nonneg (gains prices) period (1 / (period : ℚ))
    (gains_nonneg prices) halpha0 halpha1
  refine ⟨calculate_rsi_length .., ?_, ?_, ?_, ?_⟩
  · intro i hi
    rw [calculate_rsi]
    split
    · rw [getD_replicate]
      split <;> rfl
    · rw [getD_map_range]
      by_cases hl : i < prices.length
      · rw [if_pos hl, if_pos hi]
      · rw [if_neg hl]
  · intro h
    rw [calculate_rsi, if_pos h]
  · intro i hpi hilen hlen
    rw [calculate_rsi, if_neg (by omega), getD_map_range, if_pos hilen,
      if_neg (by omega)]
    constructor
    · intro h
      rw [if_pos h]
    · intro h
      rw [if_neg h]
      have hal : 0 < wilderAvg (losses prices) period (1 / (period : ℚ)) (i - period) :=
        lt_of_le_of_ne (hlnonneg _) (Ne.symm h)
      have := rsi_val_bounds _ _ (hgnonneg (i - period)) hal
      exact ⟨rfl, this.1, this.2⟩
  · intro x hx
    rw [calculate_rsi] at hx
    split at hx
    · rw [List.eq_of_mem_replicate hx]
      norm_num
    · rw [List.mem_map] at hx
      obtain ⟨i, hi, rfl⟩ := hx
      dsimp only
      split
      · norm_num
      · split
        · norm_num
        · have hal : 0 < wilderAvg (losses prices) period (1 / (period : ℚ)) (i - period) :=
            lt_of_le_of_ne (hlnonneg _) (Ne.symm (by assumption))
          have := rsi_val_bounds _ _ (hgnonneg (i - period)) hal
          exact ⟨this.1, this.2.le⟩

/-- C5 witness: a concrete three-point series with `period = 1`
exercises both the saturating branch (RSI 100 after a gain) and the
formula branch. -/
theorem calculate_rsi_range_witness :
    (1 ≤ 1) ∧ (∀ x ∈ calculate_rsi [(1 : ℚ), 3, 2] 1, 0 ≤ x ∧ x ≤ 100) :=
  ⟨le_refl 1, (calculate_rsi_range [(1 : ℚ), 3, 2] 1 (le_refl 1)).2.2.2.2⟩

/-! ### C1: liquidity sweep characterization -/

theorem foldl_min_withTop_acc (l : List ℚ) (acc : WithTop ℚ) :
    l.foldl (fun (a : WithTop ℚ) (x : ℚ) => min a (x : WithTop ℚ)) acc =
      min acc (l.foldl (fun (a : WithTop ℚ) (x : ℚ) => min a (x : WithTop ℚ)) ⊤) := by
  induction l generalizing acc with
  | nil => simp
  | cons b l ih =>
    rw [List.foldl_cons, List.foldl_cons, ih (min acc ↑b), ih (min ⊤ ↑b),
      min_eq_right (le_top : (b : WithTop ℚ) ≤ ⊤), min_assoc]

theorem le_foldl_min_withTop (l : List ℚ) (m : ℚ) (hle : ∀ x ∈ l, m ≤ x) :
    (m : WithTop ℚ) ≤ l.foldl (fun (a : WithTop ℚ) (x : ℚ) => min a (x : WithTop ℚ)) ⊤ := by
  induction l with
  | nil => simp
  | cons b l ih =>
    rw [List.foldl_cons, foldl_min_withTop_acc l (min ⊤ ↑b),
      min_eq_right (le_top : (b : WithTop ℚ) ≤ ⊤)]
    refine le_min ?_ (ih fun x hx => hle x (List.mem_cons_of_mem _ hx))
    exact_mod_cast hle b (List.mem_cons_self ..)

theorem foldl_min_withTop_least (l : List ℚ) (m : ℚ) (hmem : m ∈ l)
    (hle : ∀ x ∈ l, m ≤ x) :
    l.foldl (fun (a : WithTop ℚ) (x : ℚ) => min a (x : WithTop ℚ)) ⊤ = (m : WithTop ℚ) := by
  induction l with
  | nil => cases hmem
  | cons b l ih =>
    rw [List.foldl_cons, foldl_min_withTop_acc l (min ⊤ ↑b),
      min_eq_right (le_top : (b : WithTop ℚ) ≤ ⊤)]
    rcases List.mem_cons.mp hmem with rfl | hm
    · exact min_eq_left (le_foldl_min_withTop l m fun x hx => hle x (List.mem_cons_of_mem _ hx))
    · rw [ih hm fun x hx => hle x (List.mem_cons_of_mem _ hx)]
      exact min_eq_right (by exact_mod_cast hle b (List.mem_cons_self ..))

theorem foldl_max_withBot_acc (l : List ℚ) (acc : WithBot ℚ) :
    l.foldl (fun (a : WithBot ℚ) (x : ℚ) => max a (x : WithBot ℚ)) acc =
      max acc (l.foldl (fun (a : WithBot ℚ) (x : ℚ) => max a (x : WithBot ℚ)) ⊥) := by
  induction l generalizing acc with
  | nil => simp
  | cons b l ih =>
    rw [List.foldl_cons, List.foldl_cons, ih (max acc ↑b), ih (max ⊥ ↑b),
      max_eq_right (bot_le : ⊥ ≤ (b : WithBot ℚ)), max_assoc]

theorem foldl_max_withBot_le (l : List ℚ) (m : ℚ) (hle : ∀ x ∈ l, x ≤ m) :
    l.foldl (fun (a : WithBot ℚ) (x : ℚ) => max a (x : WithBot ℚ)) ⊥ ≤ (m : WithBot ℚ) := by
  induction l with
  | nil => simp
  | cons b l ih =>
    rw [List.foldl_cons, foldl_max_withBot_acc l (max ⊥ ↑b),
      max_eq_right (bot_le : ⊥ ≤ (b : WithBot ℚ))]
    refine max_le ?_ (ih fun x hx => hle x (List.mem_cons_of_mem _ hx))
    exact_mod_cast hle b (List.mem_cons_self ..)

theorem foldl_max_withBot_greatest (l : List ℚ) (m : ℚ) (hmem : m ∈ l)
    (hle : ∀ x ∈ l, x ≤ m) :
    l.foldl (fun (a : WithBot ℚ) (x : ℚ) => max a (x : WithBot ℚ)) ⊥ = (m : WithBot ℚ) := by
  induction l with
  | nil => cases hmem
  | cons b l ih =>
    rw [List.foldl_cons, foldl_max_withBot_acc l (max ⊥ ↑b),
      max_eq_right (bot_le : ⊥ ≤ (b : WithBot ℚ))]
    rcases List.mem_cons.mp hmem with rfl | hm
    · exact max_eq_left (foldl_max_withBot_le l m fun x hx => hle x (List.mem_cons_of_mem _ hx))
    · rw [ih hm fun x hx => hle x (List.mem_cons_of_mem _ hx)]
      exact max_eq_right (by exact_mod_cast hle b (List.mem_cons_self ..))

/-- C1 (amended): `detect_liquidity_sweep` outputs two boolean arrays
of the input length; indices below `lookback` are false; when the
series is shorter than `lookback + 2` the whole output is false; and
when `len ≥ lookback + 2`, at each index `lookback ≤ i < len` the
bullish flag is set iff `low[i]` is strictly below the minimum of `low`
over the open window `[i-lookback, i)` and `close[i]` is strictly above
that minimum, the bearish flag symmetrically against the window maximum
of `high`. -/
theorem detect_liquidity_sweep_spec (high low close : List ℚ) (lookback : ℕ)
    (hl : low.length = high.length) (hc : close.length = high.length) :
    ((detect_liquidity_sweep high low close lookback).1.length = high.length ∧
      (detect_liquidity_sweep high low close lookback).2.length = high.length) ∧
    (∀ i, i < lookback →
      (detect_liquidity_sweep high low close lookback).1.getD i false = false ∧
        (detect_liquidity_sweep high low close lookback).2.getD i false = false) ∧
    (high.length < lookback + 2 →
      (detect_liquidity_sweep high low close lookback).1 =
          List.replicate high.length false ∧
        (detect_liquidity_sweep high low close lookback).2 =
          List.replicate high.length false) ∧
    (lookback + 2 ≤ high.length → ∀ i, lookback ≤ i → i < high.length →
      (∀ m : ℚ, ((low.drop (i - lookback)).take lookback).minimum = (m : WithTop ℚ) →
        ((detect_liquidity_sweep high low close lookback).1.getD i false = true ↔
          low.getD i 0 < m ∧ m < close.getD i 0)) ∧
      (∀ m : ℚ, ((high.drop (i - lookback)).take lookback).maximum = (m : WithBot ℚ) →
        ((detect_liquidity_sweep high low close lookback).2.getD i false = true ↔
          m < high.getD i 0 ∧ close.getD i 0 < m))) := by
  rw [detect_liquidity_sweep]
  by_cases hlen : high.length < lookback + 2
  · rw [if_pos hlen]
    refine ⟨⟨by simp, by simp⟩, ?_, fun _ => ⟨rfl, rfl⟩, fun h => absurd h (by omega)⟩
    intro i _
    constructor <;> (rw [getD_replicate]; split <;> rfl)
  · rw [if_neg hlen]
    refine ⟨⟨by simp, by simp⟩, ?_, fun h => absurd h hlen, ?_⟩
    · intro i hi
      rw [getD_map_range, getD_map_range]
      constructor <;>
        · split
          · simp [Nat.not_le_of_lt hi]
          · rfl
    · intro _ i hi1 hi2
      constructor
      · intro m hm
        rw [List.minimum_eq_coe_iff] at hm
        have hfold : rollingMin low lookback i = (m : WithTop ℚ) := by
          rw [rollingMin]
          exact foldl_min_withTop_least _ m hm.1 hm.2
        rw [getD_map_range, if_pos hi2, hfold]
        simp [hi1, WithTop.coe_lt_coe]
      · intro m hm
        rw [List.maximum_eq_coe_iff] at hm
        have hfold : rollingMax high lookback i = (m : WithBot ℚ) := by
          rw [rollingMax]
          exact foldl_max_withBot_greatest _ m hm.1 hm.2
        rw [getD_map_range, if_pos hi2, hfold]
        simp [hi1, WithBot.coe_lt_coe]

/-- C1 witness: with lookback 1 the candle at index 2 breaks the
window low 3 and closes back above it, and the theorem instance
evaluates to a true bullish flag. -/
theorem detect_liquidity_sweep_witness :
    ((detect_liquidity_sweep [1, 1, 5] [5, 3, 2] [1, 1, 4] 1).1.getD 2 false = true ↔
      (2 : ℚ) < 3 ∧ (3 : ℚ) < 4) ∧
    (detect_liquidity_sweep [1, 1, 5] [5, 3, 2] [1, 1, 4] 1).1.getD 2 false = true := by
  have h := (detect_liquidity_sweep_spec [1, 1, 5] [5, 3, 2] [1, 1, 4] 1 rfl rfl).2.2.2
    (by norm_num) 2 (by norm_num) (by norm_num)
  have hmin : (([(5 : ℚ), 3, 2].drop 1).take 1).minimum = ((3 : ℚ) : WithTop ℚ) := by
    rw [List.minimum_eq_coe_iff]
    constructor
    · simp
    · intro a ha
      simp at ha
      rw [ha]
  have h1 := h.1 3 hmin
  exact ⟨h1, h1.mpr (by norm_num)⟩

/-- C1 (counterexample to the literal claim): with `lookback = 1` and a
series of length 2 (which is `< lookback + 2`), index 1 satisfies the
break-and-reclaim condition against the window minimum 5, yet the code
returns false because of the early length guard. -/
theorem detect_liquidity_sweep_cex :
    (detect_liquidity_sweep [0, 10] [5, 4] [0, 6] 1).1.getD 1 false = false ∧
      (([(5 : ℚ), 4].drop 0).take 1).minimum = ((5 : ℚ) : WithTop ℚ) ∧
      [(5 : ℚ), 4].getD 1 0 < 5 ∧ (5 : ℚ) < [(0 : ℚ), 6].getD 1 0 := by
  refine ⟨?_, ?_, by norm_num, by norm_num⟩
  · rw [detect_liquidity_sweep]
    norm_num
  · rw [List.minimum_eq_coe_iff]
    constructor
    · simp
    · intro a ha
      simp at ha
      rw [ha]

/-! ### SR-zone clustering infrastructure (C2, C4, C10) -/

theorem foldl_max_mem (l : List ℚ) (acc : ℚ) :
    l.foldl max acc = acc ∨ l.foldl max acc ∈ l := by
  induction l generalizing acc with
  | nil => exact Or.inl rfl
  | cons b l ih =>
    rw [List.foldl_cons]
    rcases ih (max acc b) with h | h
    · rw [h]
      rcases max_choice acc b with h2 | h2 <;> rw [h2]
      · exact Or.inl rfl
      · exact Or.inr (List.mem_cons_self ..)
    · exact Or.inr (List.mem_cons_of_mem _ h)

theorem le_foldl_max (l : List ℚ) (acc : ℚ) :
    acc ≤ l.foldl max acc ∧ ∀ x ∈ l, x ≤ l.foldl max acc := by
  induction l generalizing acc with
  | nil => simp
  | cons b l ih =>
    rw [List.foldl_cons]
    rcases ih (max acc b) with ⟨h1, h2⟩
    refine ⟨le_trans (le_max_left ..) h1, ?_⟩
    intro x hx
    rcases List.mem_cons.mp hx with rfl | hx
    · exact le_trans (le_max_right ..) h1
    · exact h2 x hx

theorem foldl_min_mem (l : List ℚ) (acc : ℚ) :
    l.foldl min acc = acc ∨ l.foldl min acc ∈ l := by
  induction l generalizing acc with
  | nil => exact Or.inl rfl
  | cons b l ih =>
    rw [List.foldl_cons]
    rcases ih (min acc b) with h | h
    · rw [h]
      rcases min_choice acc b with h2 | h2 <;> rw [h2]
      · exact Or.inl rfl
      · exact Or.inr (List.mem_cons_self ..)
    · exact Or.inr (List.mem_cons_of_mem _ h)

theorem foldl_min_le (l : List ℚ) (acc : ℚ) :
    l.foldl min acc ≤ acc ∧ ∀ x ∈ l, l.foldl min acc ≤ x := by
  induction l generalizing acc with
  | nil => simp
  | cons b l ih =>
    rw [List.foldl_cons]
    rcases ih (min acc b) with ⟨h1, h2⟩
    refine ⟨le_trans h1 (min_le_left ..), ?_⟩
    intro x hx
    rcases List.mem_cons.mp hx with rfl | hx
    · exact le_trans h1 (min_le_right ..)
    · exact h2 x hx

theorem clusterMax_isGreatest (c : List ℚ) (hc : c ≠ []) :
    clusterMax c ∈ c ∧ ∀ x ∈ c, x ≤ clusterMax c := by
  obtain ⟨d, t, rfl⟩ := List.exists_cons_of_ne_nil hc
  rw [clusterMax, List.headD_cons]
  constructor
  · rcases foldl_max_mem (d :: t) d with h | h
    · rw [h]
      exact List.mem_cons_self ..
    · exact h
  · exact (le_foldl_max (d :: t) d).2

theorem clusterMin_isLeast (c : List ℚ) (hc : c ≠ []) :
    clusterMin c ∈ c ∧ ∀ x ∈ c, clusterMin c ≤ x := by
  obtain ⟨d, t, rfl⟩ := List.exists_cons_of_ne_nil hc
  rw [clusterMin, List.headD_cons]
  constructor
  · rcases foldl_min_mem (d :: t) d with h | h
    · rw [h]
      exact List.mem_cons_self ..
    · exact h
  · exact (foldl_min_le (d :: t) d).2

theorem length_markUsed (used : List Bool) (idxs : List ℕ) :
    (markUsed used idxs).length = used.length := by
  rw [markUsed]
  induction idxs generalizing used with
  | nil => rfl
  | cons b t ih =>
    rw [List.foldl_cons, ih]
    exact List.length_set ..

theorem getD_markUsed (used : List Bool) (idxs : List ℕ) (j : ℕ) :
    (markUsed used idxs).getD j false = true ↔
      used.getD j false = true ∨ (j ∈ idxs ∧ j < used.length) := by
  rw [markUsed]
  induction idxs generalizing used with
  | nil => simp
  | cons b t ih =>
    rw [List.foldl_cons, ih (used.set b true)]
    rw [getD_set, List.length_set]
    constructor
    · rintro (h | ⟨h1, h2⟩)
      · by_cases hc : b = j ∧ j < used.length
        · exact Or.inr ⟨by rw [← hc.1]; exact List.mem_cons_self .., hc.2⟩
        · rw [if_neg hc] at h
          exact Or.inl h
      · exact Or.inr ⟨List.mem_cons_of_mem _ h1, h2⟩
    · rintro (h | ⟨h1, h2⟩)
      · refine Or.inl ?_
        by_cases hc : b = j ∧ j < used.length
        · rw [if_pos hc]
        · rw [if_neg hc]
          exact h
      · rcases List.mem_cons.mp h1 with rfl | h1
        · exact Or.inl (by rw [if_pos ⟨rfl, h2⟩])
        · exact Or.inr ⟨h1, h2⟩

theorem mem_collectCluster (a : List ℚ) (used : List Bool) (lvl tol : ℚ) (i j : ℕ)
    (hj : j ∈ collectCluster a used lvl tol i) :
    i + 1 ≤ j ∧ j < a.length ∧ used.getD j false = false := by
  rw [collectCluster, List.mem_filter] at hj
  obtain ⟨hj1, hj2⟩ := hj
  rw [List.mem_range'_1] at hj1
  rw [Bool.and_eq_true, Bool.not_eq_eq_eq_not, Bool.not_true] at hj2
  exact ⟨hj1.1, by omega, hj2.1⟩

theorem collectCluster_nodup (a : List ℚ) (used : List Bool) (lvl tol : ℚ) (i : ℕ) :
    (collectCluster a used lvl tol i).Nodup :=
  (List.nodup_range' ..).filter _

/-- Main structural invariant of the clustering pass: every kept
cluster is duplicate-free, meets the touch threshold, is nonempty, and
consists of indices that were unclaimed on entry; distinct kept
clusters are disjoint; and the final used vector marks exactly the
entries claimed on entry plus the members of the kept clusters. -/
theorem clusterStep_spec (a : List ℚ) (zt : ℚ) (mt : ℕ) :
    ∀ rem i used, used.length = a.length → i + rem ≤ a.length →
      (∀ c ∈ (clusterStep a zt mt rem i used).1,
        c.Nodup ∧ mt ≤ c.length ∧ c ≠ [] ∧
          ∀ j ∈ c, j < a.length ∧ used.getD j false = false) ∧
      List.Pairwise (fun c₁ c₂ => ∀ j ∈ c₁, j ∉ c₂)
        (clusterStep a zt mt rem i used).1 ∧
      (∀ j, (clusterStep a zt mt rem i used).2.getD j false = true ↔
        used.getD j false = true ∨ ∃ c ∈ (clusterStep a zt mt rem i used).1, j ∈ c) := by
  intro rem
  induction rem with
  | zero =>
    intro i used hlen hle
    rw [clusterStep]
    simp
  | succ rem ih =>
    intro i used hlen hle
    rw [clusterStep]
    by_cases hused : used.getD i false
    · rw [if_pos hused]
      exact ih (i + 1) used hlen (by omega)
    · rw [if_neg hused]
      rw [Bool.not_eq_true] at hused
      by_cases hkept :
          mt ≤ (i :: collectCluster a used (a.getD i 0) (a.getD i 0 * zt) i).length
      · rw [if_pos hkept]
        dsimp only
        set cidx := i :: collectCluster a used (a.getD i 0) (a.getD i 0 * zt) i with hcidx
        have hmem : ∀ j ∈ cidx, j < a.length ∧ used.getD j false = false := by
          intro j hj
          rcases List.mem_cons.mp hj with rfl | hj
          · exact ⟨by omega, hused⟩
          · have := mem_collectCluster a used _ _ i j hj
            exact ⟨this.2.1, this.2.2⟩
        have hnodup : cidx.Nodup := by
          rw [hcidx, List.nodup_cons]
          refine ⟨?_, collectCluster_nodup ..⟩
          intro hmm
          have := mem_collectCluster a used _ _ i i hmm
          omega
        obtain ⟨ih1, ih2, ih3⟩ := ih (i + 1) (markUsed used cidx)
          (by rw [length_markUsed]; exact hlen) (by omega)
        have hmarked : ∀ j ∈ cidx, (markUsed used cidx).getD j false = true := by
          intro j hj
          rw [getD_markUsed]
          exact Or.inr ⟨hj, by rw [hlen]; exact (hmem j hj).1⟩
        refine ⟨?_, ?_, ?_⟩
        · intro c hc
          rcases List.mem_cons.mp hc with rfl | hc
          · exact ⟨hnodup, hkept, by rw [hcidx]; exact List.cons_ne_nil _ _, hmem⟩
          · obtain ⟨h1, h2, h3, h4⟩ := ih1 c hc
            refine ⟨h1, h2, h3, ?_⟩
            intro j hj
            refine ⟨(h4 j hj).1, ?_⟩
            have hm := (h4 j hj).2
            by_contra hne
            rw [Bool.not_eq_false] at hne
            rw [(getD_markUsed used cidx j).mpr (Or.inl hne)] at hm
            exact Bool.noConfusion hm
        · rw [List.pairwise_cons]
          refine ⟨?_, ih2⟩
          intro c hc j hj
          intro hjc
          have := (ih1 c hc).2.2.2 j hjc
          rw [hmarked j hj] at this
          exact Bool.noConfusion this.2
        · intro j
          rw [ih3 j, getD_markUsed]
          constructor
          · rintro ((h | ⟨h1, h2⟩) | ⟨c, hc, hj⟩)
            · exact Or.inl h
            · exact Or.inr ⟨cidx, List.mem_cons_self .., h1⟩
            · exact Or.inr ⟨c, List.mem_cons_of_mem _ hc, hj⟩
          · rintro (h | ⟨c, hc, hj⟩)
            · exact Or.inl (Or.inl h)
            · rcases List.mem_cons.mp hc with rfl | hc
              · exact Or.inl (Or.inr ⟨hj, by rw [hlen]; exact (hmem j hj).1⟩)
              · exact Or.inr ⟨c, hc, hj⟩
      · rw [if_neg hkept]
        exact ih (i + 1) used hlen (by omega)

theorem keptClusters_spec (a : List ℚ) (zt : ℚ) (mt : ℕ) :
    (∀ c ∈ keptClusters a zt mt,
      c.Nodup ∧ mt ≤ c.length ∧ c ≠ [] ∧ ∀ j ∈ c, j < a.length) ∧
    List.Pairwise (fun c₁ c₂ => ∀ j ∈ c₁, j ∉ c₂) (keptClusters a zt mt) ∧
    (∀ j, (finalUsed a zt mt).getD j false = true ↔
      ∃ c ∈ keptClusters a zt mt, j ∈ c) := by
  obtain ⟨h1, h2, h3⟩ := clusterStep_spec a zt mt a.length 0
    (List.replicate a.length false) (by simp) (by omega)
  refine ⟨?_, h2, ?_⟩
  · intro c hc
    obtain ⟨hn, hm, he, hj⟩ := h1 c hc
    exact ⟨hn, hm, he, fun j hjc => (hj j hjc).1⟩
  · intro j
    rw [finalUsed, h3 j, getD_replicate]
    constructor
    · rintro (h | h)
      · split at h <;> exact Bool.noConfusion h
      · exact h
    · exact Or.inr

theorem mem_rawZones_of_mem_identify (sh sl : List (Option ℚ)) (price zt : ℚ)
    (mt : ℕ) (z : SrZone) (hz : z ∈ identify_sr_zones sh sl price zt mt) :
    z ∈ rawZones sh sl price zt mt := by
  rw [identify_sr_zones] at hz
  have h2 := (List.mergeSort_perm _ distanceAsc).subset hz
  have h3 := List.take_subset 5 _ h2
  exact (List.mergeSort_perm _ strengthDesc).subset h3

theorem mkZone_fields (price : ℚ) (v : List ℚ) (hv : v ≠ []) :
    (mkZone price v).strength = v.length ∧
    (mkZone price v).level = roundTo2 (v.sum / v.length) ∧
    (∃ m ∈ v, (∀ x ∈ v, x ≤ m) ∧ (mkZone price v).top = roundTo2 m) ∧
    (∃ m ∈ v, (∀ x ∈ v, m ≤ x) ∧ (mkZone price v).bottom = roundTo2 m) ∧
    ((mkZone price v).zone_type = "support" ↔ v.sum / v.length < price) ∧
    ((mkZone price v).zone_type = "resistance" ↔ ¬v.sum / v.length < price) ∧
    (mkZone price v).distance = |price - v.sum / v.length| := by
  obtain ⟨hmax1, hmax2⟩ := clusterMax_isGreatest v hv
  obtain ⟨hmin1, hmin2⟩ := clusterMin_isLeast v hv
  refine ⟨rfl, rfl, ⟨clusterMax v, hmax1, hmax2, rfl⟩,
    ⟨clusterMin v, hmin1, hmin2, rfl⟩, ?_, ?_, rfl⟩ <;>
    · rw [mkZone]
      dsimp only
      by_cases h : v.sum / v.length < price
      · rw [if_pos h]
        simp [h]
      · rw [if_neg h]
        simp [h]

/-- C2 (amended): every zone reported by `identify_sr_zones` comes from
a kept cluster; its level, top and bottom are the cluster mean, maximum
and minimum rounded to 2 decimal places, its strength is the cluster
size, while the support/resistance classification (equality giving
resistance) and the distance use the unrounded cluster mean, not the
rounded level. -/
theorem sr_zone_fields (sh sl : List (Option ℚ)) (price zt : ℚ) (mt : ℕ) :
    (∀ c ∈ keptClusters (flatten_levels sh sl) zt mt,
      (mkZone price (clusterVals (flatten_levels sh sl) c)).strength =
          (clusterVals (flatten_levels sh sl) c).length ∧
        (mkZone price (clusterVals (flatten_levels sh sl) c)).level =
          roundTo2 ((clusterVals (flatten_levels sh sl) c).sum /
            (clusterVals (flatten_levels sh sl) c).length) ∧
        (∃ m ∈ clusterVals (flatten_levels sh sl) c,
          (∀ x ∈ clusterVals (flatten_levels sh sl) c, x ≤ m) ∧
            (mkZone price (clusterVals (flatten_levels sh sl) c)).top = roundTo2 m) ∧
        (∃ m ∈ clusterVals (flatten_levels sh sl) c,
          (∀ x ∈ clusterVals (flatten_levels sh sl) c, m ≤ x) ∧
            (mkZone price (clusterVals (flatten_levels sh sl) c)).bottom = roundTo2 m) ∧
        ((mkZone price (clusterVals (flatten_levels sh sl) c)).zone_type = "support" ↔
          (clusterVals (flatten_levels sh sl) c).sum /
            (clusterVals (flatten_levels sh sl) c).length < price) ∧
        ((mkZone price (clusterVals (flatten_levels sh sl) c)).zone_type = "resistance" ↔
          ¬(clusterVals (flatten_levels sh sl) c).sum /
            (clusterVals (flatten_levels sh sl) c).length < price) ∧
        (mkZone price (clusterVals (flatten_levels sh sl) c)).distance =
          |price - (clusterVals (flatten_levels sh sl) c).sum /
            (clusterVals (flatten_levels sh sl) c).length|) ∧
    (∀ z ∈ identify_sr_zones sh sl price zt mt,
      ∃ c ∈ keptClusters (flatten_levels sh sl) zt mt,
        z = mkZone price (clusterVals (flatten_levels sh sl) c)) := by
  obtain ⟨h1, _, _⟩ := keptClusters_spec (flatten_levels sh sl) zt mt
  constructor
  · intro c hc
    refine mkZone_fields price (clusterVals (flatten_levels sh sl) c) ?_
    have := (h1 c hc).2.2.1
    rw [clusterVals]
    simpa using this
  · intro z hz
    have hraw := mem_rawZones_of_mem_identify sh sl price zt mt z hz
    rw [rawZones, List.mem_map] at hraw
    obtain ⟨c, hc, rfl⟩ := hraw
    exact ⟨c, hc, rfl⟩

/-- C2 (counterexample to the literal claim): for the single swing
value 100.006 with current price 100, the reported level is the rounded
100.01 but the distance is |100 - 100.006| = 3/500, not
|100 - 100.01|: distance (and the type test) use the unrounded mean. -/
theorem sr_zone_fields_cex :
    identify_sr_zones [some (100.006 : ℚ)] [] 100 0 1 =
      [⟨100.01, "resistance", 1, 100.01, 100.01, 3 / 500⟩] ∧
    ((3 : ℚ) / 500) ≠ |(100 : ℚ) - 100.01| := by
  constructor
  · rw [identify_sr_zones, rawZones]
    simp only [show flatten_levels [some (100.006 : ℚ)] [] = [100.006] from rfl]
    rw [show keptClusters [(100.006 : ℚ)] 0 1 = [[0]] by
      rw [keptClusters]
      simp [clusterStep, collectCluster, markUsed, getD_replicate]]
    simp only [List.map_cons, List.map_nil, clusterVals]
    rw [List.mergeSort_singleton]
    simp only [List.take_succ_cons, List.take_nil]
    rw [List.mergeSort_singleton]
    congr 1
    rw [mkZone]
    simp only [clusterMax, clusterMin]
    norm_num [roundTo2, rustRound]
  · rw [show (100 : ℚ) - 100.01 = -(1 / 100) by norm_num, abs_neg,
      abs_of_nonneg (by norm_num : (0 : ℚ) ≤ 1 / 100)]
    norm_num

theorem strengthDesc_trans (x y w : SrZone) (h1 : strengthDesc x y = true)
    (h2 : strengthDesc y w = true) : strengthDesc x w = true := by
  rw [strengthDesc, decide_eq_true_eq] at *
  omega

theorem strengthDesc_total (x y : SrZone) :
    (strengthDesc x y || strengthDesc y x) = true := by
  rw [strengthDesc, strengthDesc, Bool.or_eq_true, decide_eq_true_eq, decide_eq_true_eq]
  omega

theorem distanceAsc_trans (x y w : SrZone) (h1 : distanceAsc x y = true)
    (h2 : distanceAsc y w = true) : distanceAsc x w = true := by
  rw [distanceAsc, decide_eq_true_eq] at *
  linarith

theorem distanceAsc_total (x y : SrZone) :
    (distanceAsc x y || distanceAsc y x) = true := by
  rw [distanceAsc, distanceAsc, Bool.or_eq_true, decide_eq_true_eq, decide_eq_true_eq]
  exact le_total ..

/-- C4: `identify_sr_zones` returns at most 5 zones; survival is
decided by the strength ranking alone (every returned zone is at least
as strong as every zone truncated away), and the returned sequence is a
permutation of the strength-ranked top 5, finally presented sorted by
distance ascending. -/
theorem sr_zone_ranking (sh sl : List (Option ℚ)) (price zt : ℚ) (mt : ℕ) :
    (identify_sr_zones sh sl price zt mt).length ≤ 5 ∧
    (identify_sr_zones sh sl price zt mt).Perm
      (((rawZones sh sl price zt mt).mergeSort strengthDesc).take 5) ∧
    List.Sorted (fun x y : SrZone => x.distance ≤ y.distance)
      (identify_sr_zones sh sl price zt mt) ∧
    (∀ z ∈ identify_sr_zones sh sl price zt mt,
      ∀ w ∈ ((rawZones sh sl price zt mt).mergeSort strengthDesc).drop 5,
        w.strength ≤ z.strength) := by
  have hperm : (identify_sr_zones sh sl price zt mt).Perm
      (((rawZones sh sl price zt mt).mergeSort strengthDesc).take 5) :=
    List.mergeSort_perm _ _
  refine ⟨?_, hperm, ?_, ?_⟩
  · rw [hperm.length_eq, List.length_take]
    exact min_le_left ..
  · have h : List.Pairwise (fun x y => distanceAsc x y = true)
        (identify_sr_zones sh sl price zt mt) := by
      rw [identify_sr_zones]
      exact List.sorted_mergeSort (fun x y w => distanceAsc_trans x y w)
        distanceAsc_total _
    exact h.imp fun hab => by
      rw [distanceAsc, decide_eq_true_eq] at hab
      exact hab
  · have hsorted : List.Pairwise (fun x y => strengthDesc x y = true)
        ((rawZones sh sl price zt mt).mergeSort strengthDesc) :=
      List.sorted_mergeSort (fun x y w => strengthDesc_trans x y w)
        strengthDesc_total _
    rw [← List.take_append_drop 5
      ((rawZones sh sl price zt mt).mergeSort strengthDesc), List.pairwise_append]
      at hsorted
    intro z hz w hw
    have hzw := hsorted.2.2 z (hperm.subset hz) w hw
    rw [strengthDesc, decide_eq_true_eq] at hzw
    exact hzw

/-- C10: the clustering pass claims a swing value exactly when the
value lies in a kept cluster (undersized clusters, including their
seed, stay unclaimed and can join a later seed's cluster), kept
clusters are pairwise disjoint duplicate-free index sets of size at
least `min_touches`, and the returned zones are exactly the kept
clusters' zones ranked and truncated, so each flattened swing value
contributes to the strength of at most one returned zone. -/
theorem sr_zone_claiming (sh sl : List (Option ℚ)) (price zt : ℚ) (mt : ℕ) :
    (∀ j, (finalUsed (flatten_levels sh sl) zt mt).getD j false = true ↔
      ∃ c ∈ keptClusters (flatten_levels sh sl) zt mt, j ∈ c) ∧
    List.Pairwise (fun c₁ c₂ => ∀ j ∈ c₁, j ∉ c₂)
      (keptClusters (flatten_levels sh sl) zt mt) ∧
    (∀ c ∈ keptClusters (flatten_levels sh sl) zt mt, c.Nodup ∧ mt ≤ c.length) ∧
    identify_sr_zones sh sl price zt mt =
      ((((keptClusters (flatten_levels sh sl) zt mt).map fun c =>
        mkZone price (clusterVals (flatten_levels sh sl) c)).mergeSort
          strengthDesc).take 5).mergeSort distanceAsc := by
  obtain ⟨h1, h2, h3⟩ := keptClusters_spec (flatten_levels sh sl) zt mt
  exact ⟨h3, h2, fun c hc => ⟨(h1 c hc).1, (h1 c hc).2.1⟩, rfl⟩

end RustAnalysis
